import Mathlib

/-!
Verification development for the retrieval / citation / session core of a
RAG chatbot backend.  The Python sources are shallowly embedded:

* `backend/models/session.py` and `backend/services/session_service.py`
  (session store, expiration, message history) — time is modelled as an
  integer number of seconds passed explicitly to every operation in place
  of `datetime.now()`; the in-memory dict `self.sessions` is modelled as an
  association list with Python-dict semantics (unique keys, insertion
  order, in-place value update).
* `backend/services/citation_service.py` (`create_context_preview`,
  `_truncate_content`) — Python strings are modelled as `List Char`.
* `backend/services/retrieval_service.py` (cosine similarity, top-k
  retrieval, reranking, diversity filter) — float vectors are modelled as
  lists of real numbers with exact arithmetic.
-/

namespace RAG

/-! ## Python dict model

`self.sessions` is a Python dict.  Keys in a Python dict are unique, so
removal and in-place update are modelled over every matching key of the
association list (on well-formed states there is at most one). -/

/-- `d.get(k)`: first value stored under key `k`, if any. -/
def pyDictGet {α : Type} (d : List (String × α)) (k : String) : Option α :=
  match d with
  | [] => none
  | (k2, v) :: rest => if k2 = k then some v else pyDictGet rest k

/-- `del d[k]`: remove the entry stored under key `k`. -/
def pyDictDel {α : Type} (d : List (String × α)) (k : String) : List (String × α) :=
  d.filter (fun p => !(p.1 == k))

/-- `d[k] = v`: update in place when the key is present, else append. -/
def pyDictSet {α : Type} (d : List (String × α)) (k : String) (v : α) :
    List (String × α) :=
  if (pyDictGet d k).isSome then
    d.map (fun p => if p.1 = k then (k, v) else p)
  else
    d ++ [(k, v)]

/-- `d.values()` in insertion order. -/
def pyDictValues {α : Type} (d : List (String × α)) : List α :=
  d.map Prod.snd

theorem pyDictGet_pyDictDel {α : Type} (d : List (String × α)) (k : String) :
    pyDictGet (pyDictDel d k) k = none := by
  induction d with
  | nil => rfl
  | cons p rest ih =>
    obtain ⟨a, b⟩ := p
    by_cases h : a = k
    · simpa [pyDictDel, List.filter_cons, h] using ih
    · simpa [pyDictDel, List.filter_cons, h, pyDictGet] using ih

/-! ## Session model (`backend/models/session.py`)

`Message.id` (a fresh UUID) and the free-form `metadata` maps carry no
information relevant to any claim and are not modelled; all other fields
are kept.  `datetime` values are integers (seconds), `timedelta(hours=h)`
is `3600 * h` seconds. -/

/-- A chat message (source: class `Message`). -/
structure Message where
  role : String
  content : String
  timestamp : ℤ
deriving DecidableEq, Repr

/-- A conversation session (source: class `Session`). -/
structure Session where
  id : String
  user_id : Option String
  created_at : ℤ
  updated_at : ℤ
  messages : List Message
  is_active : Bool
deriving DecidableEq, Repr

/-- `Session.is_expired`: `datetime.now() - self.updated_at > timedelta(hours=hours)`. -/
def Session.is_expired (s : Session) (now : ℤ) (hours : ℤ) : Bool :=
  decide (3600 * hours < now - s.updated_at)

/-- `Session.add_message`: build the message, append it, bump `updated_at`.
Returns the created message together with the updated session. -/
def Session.add_message (s : Session) (now : ℤ) (role content : String) :
    Message × Session :=
  let message : Message := ⟨role, content, now⟩
  (message, { s with messages := s.messages ++ [message], updated_at := now })

/-- Python slice `l[-i:]` for an `int` index `i` (negative index clamped at
the front of the list; `-0` is `0`, so `i = 0` yields the whole list). -/
def pyTailSlice {α : Type} (l : List α) (i : Int) : List α :=
  if 0 < i then l.drop (l.length - i.toNat) else l.drop (-i).toNat

/-- `Session.get_messages`:
`self.messages[-limit:] if len(self.messages) >= limit else self.messages`,
with `limit is None` returning the whole history. -/
def Session.get_messages (s : Session) (limit : Option Int) : List Message :=
  match limit with
  | none => s.messages
  | some l => if l ≤ (s.messages.length : Int) then pyTailSlice s.messages l
              else s.messages

/-! ## Session service (`backend/services/session_service.py`)

Every operation takes the current time `now`; each Python
`datetime.now()` call inside one operation is identified with that single
instant.  Operations return their Python return value together with the
resulting store state. -/

/-- The session service state: the dict `self.sessions`. -/
structure SessionService where
  sessions : List (String × Session)
deriving DecidableEq, Repr

/-- `SessionService.get_session`: look the id up; if the session is
expired, delete it and return `None` (the `NotFound` outcome). -/
def SessionService.get_session (svc : SessionService) (now : ℤ)
    (session_id : String) : Option Session × SessionService :=
  match pyDictGet svc.sessions session_id with
  | none => (none, svc)
  | some session =>
      if session.is_expired now 24 then
        (none, ⟨pyDictDel svc.sessions session_id⟩)
      else
        (some session, svc)

/-- `SessionService.update_session`: bump `updated_at` and store the session. -/
def SessionService.update_session (svc : SessionService) (now : ℤ)
    (session : Session) : SessionService :=
  ⟨pyDictSet svc.sessions session.id { session with updated_at := now }⟩

/-- `SessionService.add_message_to_session`: `get_session`; on `None`
return `None`; otherwise `session.add_message(role, content)` followed by
`update_session`.  No role validation happens anywhere on this path
(`Message.validate_role` exists in the source but is never invoked). -/
def SessionService.add_message_to_session (svc : SessionService) (now : ℤ)
    (session_id role content : String) : Option Message × SessionService :=
  match svc.get_session now session_id with
  | (none, svc2) => (none, svc2)
  | (some session, svc2) =>
      let r := session.add_message now role content
      (some r.1, svc2.update_session now r.2)

/-- `SessionService.get_session_messages`: `get_session` then
`session.get_messages(limit)`. -/
def SessionService.get_session_messages (svc : SessionService) (now : ℤ)
    (session_id : String) (limit : Option Int) :
    Option (List Message) × SessionService :=
  match svc.get_session now session_id with
  | (none, svc2) => (none, svc2)
  | (some session, svc2) => (some (session.get_messages limit), svc2)

/-- `SessionService.get_user_sessions`: scan `self.sessions.values()`,
keep sessions of the user that are not expired.  Expired sessions are
only skipped (`continue`); the store is never modified. -/
def SessionService.get_user_sessions (svc : SessionService) (now : ℤ)
    (user_id : String) : List Session × SessionService :=
  ((pyDictValues svc.sessions).filter
      (fun s => decide (s.user_id = some user_id) && !(s.is_expired now 24)),
    svc)

/-! ## Session fixtures used by witnesses and counterexamples -/

/-- An expired session (last touched at time 0) owned by user `u`. -/
def staleSession : Session := ⟨"a", some "u", 0, 0, [], true⟩

/-- A store holding only `staleSession`. -/
def staleStore : SessionService := ⟨[("a", staleSession)]⟩

/-- A fresh empty session. -/
def freshSession : Session := ⟨"s1", none, 0, 0, [], true⟩

/-- A store holding only `freshSession`. -/
def freshStore : SessionService := ⟨[("s1", freshSession)]⟩

/-- A live session for user `u` with two messages, last touched at 100. -/
def liveSession : Session :=
  ⟨"l", some "u", 0, 100, [⟨"user", "hi", 50⟩, ⟨"assistant", "hello", 60⟩], true⟩

/-- A store holding only `liveSession`. -/
def liveStore : SessionService := ⟨[("l", liveSession)]⟩

/-! ## Claims C6, C7, C9, C10 -/

/-- Claim C6: for every session whose `updated_at` lies more than the
24-hour expiry window in the past, `get_session` reports NotFound (`None`)
and afterwards the session id is no longer present in the store. -/
theorem get_session_expired_evicts (svc : SessionService) (now : ℤ)
    (sid : String) (s : Session)
    (hfind : pyDictGet svc.sessions sid = some s)
    (hexp : 3600 * 24 < now - s.updated_at) :
    (svc.get_session now sid).1 = none ∧
      pyDictGet (svc.get_session now sid).2.sessions sid = none := by
  have hb : s.is_expired now 24 = true := by
    simp only [Session.is_expired, decide_eq_true_eq]
    linarith
  refine ⟨?_, ?_⟩ <;>
    simp [SessionService.get_session, hfind, hb, pyDictGet_pyDictDel]

/-- Witness for C6: a store whose only session was last touched at time 0,
read at time 90000 (more than 24h = 86400s later). -/
theorem get_session_expired_evicts_witness :
    (staleStore.get_session 90000 "a").1 = none ∧
      pyDictGet (staleStore.get_session 90000 "a").2.sessions "a" = none :=
  get_session_expired_evicts staleStore 90000 "a" staleSession
    (by decide) (by decide)

/-- Claim C7 (code bug): `add_message_to_session` with the invalid role
`"system"` on an existing fresh session does not fail: the message is
appended and returned, because `Message.validate_role` is never invoked
anywhere in the source.  The claim requires an InvalidInput error here. -/
theorem add_message_accepts_invalid_role :
    (freshStore.add_message_to_session 0 "s1" "system" "hi").1 =
        some ⟨"system", "hi", 0⟩ ∧
      pyDictGet (freshStore.add_message_to_session 0 "s1" "system" "hi").2.sessions
          "s1" =
        some ⟨"s1", none, 0, 0, [⟨"system", "hi", 0⟩], true⟩ := by
  decide

/-- Counterexample to C9 as stated: `get_user_sessions` encounters an
expired session of the user, skips it in the result, but does NOT evict
it — the id is still present in the store afterwards. -/
theorem get_user_sessions_does_not_evict :
    (staleStore.get_user_sessions 90000 "u").1 = [] ∧
      pyDictGet (staleStore.get_user_sessions 90000 "u").2.sessions "a" =
        some staleSession := by
  decide

/-- Claim C9 (amended): `get_user_sessions` returns exactly the user's
non-expired sessions (every returned session belongs to the user and is
unexpired, and every unexpired session of the user in the store is
returned); expired sessions are merely skipped and the store is left
completely unchanged (no eviction). -/
theorem get_user_sessions_spec (svc : SessionService) (now : ℤ)
    (uid : String) :
    (svc.get_user_sessions now uid).2 = svc ∧
      (∀ s ∈ (svc.get_user_sessions now uid).1,
        s.user_id = some uid ∧ s.is_expired now 24 = false) ∧
      (∀ p ∈ svc.sessions, p.2.user_id = some uid →
        p.2.is_expired now 24 = false →
        p.2 ∈ (svc.get_user_sessions now uid).1) := by
  refine ⟨rfl, ?_, ?_⟩
  · intro s hs
    simp only [SessionService.get_user_sessions, List.mem_filter,
      Bool.and_eq_true, decide_eq_true_eq, Bool.not_eq_true'] at hs
    exact hs.2
  · intro p hp h1 h2
    simp only [SessionService.get_user_sessions, List.mem_filter,
      Bool.and_eq_true, decide_eq_true_eq, Bool.not_eq_true', pyDictValues]
    exact ⟨List.mem_map_of_mem Prod.snd hp, h1, h2⟩

/-- Witness for C9 (amended): a live session of user `u` is returned by
`get_user_sessions` at a time well inside the expiry window. -/
theorem get_user_sessions_spec_witness :
    liveSession ∈ (liveStore.get_user_sessions 200 "u").1 :=
  (get_user_sessions_spec liveStore 200 "u").2.2 ("l", liveSession)
    (by decide) (by decide) (by decide)

/-- Claim C10: on every session that `get_session` finds (existing and
non-expired), `get_session_messages` with `limit = 0` returns the full
message history: the Python slice `messages[-0:]` is the whole list. -/
theorem get_messages_limit_zero (svc : SessionService) (now : ℤ)
    (sid : String) (s : Session)
    (h : (svc.get_session now sid).1 = some s) :
    (svc.get_session_messages now sid (some 0)).1 = some s.messages := by
  unfold SessionService.get_session_messages
  rcases hh : svc.get_session now sid with ⟨o, svc2⟩
  rw [hh] at h
  simp only at h
  subst h
  simp [Session.get_messages, pyTailSlice, Int.natCast_nonneg]

/-- Witness for C10: the live two-message session, read with `limit = 0`,
yields both messages. -/
theorem get_messages_limit_zero_witness :
    (liveStore.get_session_messages 200 "l" (some 0)).1 =
      some [⟨"user", "hi", 50⟩, ⟨"assistant", "hello", 60⟩] :=
  get_messages_limit_zero liveStore 200 "l" liveSession (by decide)

/-! ## Python string primitives (`str` modelled as `List Char`)

Used by `backend/services/citation_service.py`. -/

/-- Python whitespace (the ASCII characters recognised by `str.split()` /
`str.strip()` with no argument). -/
def isPySpace (c : Char) : Bool :=
  c == ' ' || c == '\t' || c == '\n' || c == '\r' || c == '\x0b' || c == '\x0c'

/-- `s.strip()`: drop whitespace from both ends. -/
def pyStrip (l : List Char) : List Char :=
  ((l.dropWhile isPySpace).reverse.dropWhile isPySpace).reverse

/-- `s.lower()`. -/
def pyLower (l : List Char) : List Char :=
  l.map Char.toLower

/-- Helper for `pySplit`: accumulates the current word in reverse. -/
def pySplitAux : List Char → List Char → List (List Char)
  | [], cur => if cur.isEmpty then [] else [cur.reverse]
  | c :: rest, cur =>
      if isPySpace c then
        if cur.isEmpty then pySplitAux rest [] else cur.reverse :: pySplitAux rest []
      else pySplitAux rest (c :: cur)

/-- `s.split()`: split on whitespace runs, producing no empty words. -/
def pySplit (l : List Char) : List (List Char) :=
  pySplitAux l []

/-- All positions `≥ i` at which `needle` occurs in the remaining suffix.
This is what the source's `while True: pos = content_lower.find(word, start)
… start = pos + 1` loop collects: every occurrence position, in increasing
order (an empty needle also matches at the very end, as in Python). -/
def occurrencesFrom (needle : List Char) : Nat → List Char → List Nat
  | i, [] => if needle.isPrefixOf [] then [i] else []
  | i, c :: rest =>
      let tail := occurrencesFrom needle (i + 1) rest
      if needle.isPrefixOf (c :: rest) then i :: tail else tail

/-- All occurrence positions of `needle` in `hay`. -/
def occurrences (needle hay : List Char) : List Nat :=
  occurrencesFrom needle 0 hay

/-- Python slice `l[a:b]` for `0 ≤ a ≤ b`. -/
def pySlice (l : List Char) (a b : Nat) : List Char :=
  (l.take b).drop a

/-! ## Citation service (`backend/services/citation_service.py`) -/

/-- `CitationService._truncate_content`: return the content unchanged when
it fits, else the first `max_length` characters followed by `"..."`. -/
def truncate_content (content : List Char) (max_length : Nat) : List Char :=
  if content.length ≤ max_length then content
  else content.take max_length ++ ['.', '.', '.']

/-- The snippet-collection loop of `create_context_preview`.  `pend` is
`processed_end` (initially `-1`); positions covered by a previous snippet
are skipped; the loop stops after two snippets.  Natural subtraction
models Python's `max(0, _)` clamping (all positions fed to the loop are
`≤ content.length`, under which the two coincide). -/
def snippetLoopGo (content : List Char) (size : Nat) :
    List Nat → List (List Char) → Int → List (List Char)
  | [], snips, _ => snips
  | pos :: rest, snips, pend =>
      if (pos : Int) < pend then snippetLoopGo content size rest snips pend
      else
        let start := pos - size / 2
        let en := min content.length (start + size)
        let start2 := if en - start < size then en - size else start
        let snippet := pyStrip (pySlice content start2 en)
        let snips2 := snips ++ [snippet]
        if 2 ≤ snips2.length then snips2
        else snippetLoopGo content size rest snips2 (en : Int)

/-- The tail of `create_context_preview` once the sorted, deduplicated
term positions are known: run the snippet loop, join the snippets with
`" ... "`, and truncate the preview to `snippet_size * 2` when it is
longer than that. -/
def context_preview_core (content : List Char) (size : Nat)
    (positions : List Nat) : List Char :=
  let snippets := snippetLoopGo content size positions [] (-1)
  if !snippets.isEmpty then
    let preview := List.intercalate (' ' :: '.' :: '.' :: '.' :: [' ']) snippets
    if size * 2 < preview.length then truncate_content preview (size * 2)
    else preview
  else truncate_content content size

/-- `CitationService.create_context_preview`.  `query = none` models
Python `query=None`; `not query` is also true for the empty string.
`term_positions` concatenates the occurrence positions of every
lower-cased query word in the lower-cased content; `sorted(set(...))` is
deduplication followed by an ascending sort. -/
def create_context_preview (content : List Char) (query : Option (List Char))
    (snippet_size : Nat) : List Char :=
  match query with
  | none => truncate_content content snippet_size
  | some q =>
      if q.isEmpty then truncate_content content snippet_size
      else
        let term_positions :=
          ((pySplit (pyLower q)).map
            (fun w => occurrences w (pyLower content))).flatten
        if term_positions.isEmpty then truncate_content content snippet_size
        else
          context_preview_core content snippet_size
            (List.insertionSort (· ≤ ·) term_positions.dedup)

/-! ## Length bounds for the context preview -/

theorem truncate_content_length (l : List Char) (m : Nat) :
    (truncate_content l m).length ≤ m + 3 := by
  unfold truncate_content
  split
  · omega
  · simp only [List.length_append, List.length_take, List.length_cons,
      List.length_nil]
    omega

theorem dropWhile_length_le {α : Type} (p : α → Bool) (l : List α) :
    (l.dropWhile p).length ≤ l.length := by
  induction l with
  | nil => simp
  | cons c cs ih =>
    rw [List.dropWhile]
    split
    · simp only [List.length_cons]
      omega
    · simp

theorem pyStrip_length_le (l : List Char) : (pyStrip l).length ≤ l.length := by
  unfold pyStrip
  calc ((l.dropWhile isPySpace).reverse.dropWhile isPySpace).reverse.length
      = ((l.dropWhile isPySpace).reverse.dropWhile isPySpace).length := by
        simp
    _ ≤ (l.dropWhile isPySpace).reverse.length := dropWhile_length_le _ _
    _ = (l.dropWhile isPySpace).length := by simp
    _ ≤ l.length := dropWhile_length_le _ _

theorem pySlice_length_le (l : List Char) (a b : Nat) :
    (pySlice l a b).length ≤ b - a := by
  unfold pySlice
  simp [List.length_take]
  omega

theorem pyStrip_pySlice_le (l : List Char) (a b n : Nat) (h : b ≤ a + n) :
    (pyStrip (pySlice l a b)).length ≤ n := by
  have h1 := pyStrip_length_le (pySlice l a b)
  have h2 := pySlice_length_le l a b
  omega

theorem snippetLoopGo_bound (content : List Char) (size : Nat)
    (positions : List Nat) (snips : List (List Char)) (pend : Int)
    (hlen : snips.length ≤ 1) (hall : ∀ s ∈ snips, s.length ≤ size) :
    (snippetLoopGo content size positions snips pend).length ≤ 2 ∧
      ∀ s ∈ snippetLoopGo content size positions snips pend,
        s.length ≤ size := by
  induction positions generalizing snips pend with
  | nil =>
    rw [snippetLoopGo]
    exact ⟨by omega, hall⟩
  | cons pos rest ih =>
    rw [snippetLoopGo]
    split
    · exact ih snips pend hlen hall
    · dsimp only
      set start := pos - size / 2 with hstart
      set en := min content.length (start + size) with hen
      set start2 := (if en - start < size then en - size else start)
        with hstart2
      set snippet := pyStrip (pySlice content start2 en) with hsnippet
      have hsz : snippet.length ≤ size := by
        rw [hsnippet]
        refine pyStrip_pySlice_le content start2 en size ?_
        have hub : en ≤ start + size := by
          rw [hen]; exact Nat.min_le_right _ _
        rw [hstart2]
        split <;> omega
      have hall2 : ∀ s ∈ snips ++ [snippet], s.length ≤ size := by
        intro s hs
        rcases List.mem_append.1 hs with h | h
        · exact hall s h
        · rcases List.mem_singleton.1 h with rfl
          exact hsz
      split
      · refine ⟨?_, hall2⟩
        simp only [List.length_append, List.length_singleton]
        omega
      · refine ih _ _ ?_ hall2
        rename_i hnot
        simp only [List.length_append, List.length_singleton] at hnot ⊢
        omega

theorem intercalate_two_bound (sep : List Char) (l : List (List Char))
    (size : Nat) (h2 : l.length ≤ 2) (hall : ∀ s ∈ l, s.length ≤ size) :
    (List.intercalate sep l).length ≤ 2 * size + sep.length := by
  match l with
  | [] => simp [List.intercalate]
  | [a] =>
    have := hall a (by simp)
    simp [List.intercalate]
    omega
  | [a, b] =>
    have ha := hall a (by simp)
    have hb := hall b (by simp)
    simp [List.intercalate, List.intersperse]
    omega
  | a :: b :: c :: t => simp at h2

theorem context_preview_core_length (content : List Char) (size : Nat)
    (positions : List Nat) :
    (context_preview_core content size positions).length ≤ 2 * size + 3 := by
  have hloop := snippetLoopGo_bound content size positions [] (-1)
    (by simp) (by simp)
  have hpre := intercalate_two_bound (' ' :: '.' :: '.' :: '.' :: [' '])
    (snippetLoopGo content size positions [] (-1)) size hloop.1 hloop.2
  have htr1 := truncate_content_length
    (List.intercalate (' ' :: '.' :: '.' :: '.' :: [' '])
      (snippetLoopGo content size positions [] (-1))) (size * 2)
  have htr2 := truncate_content_length content size
  have hsep : ((' ' :: '.' :: '.' :: '.' :: [' ']) : List Char).length = 5 :=
    rfl
  rw [context_preview_core]
  dsimp only
  split
  · split
    · omega
    · omega
  · omega

/-- Claim C3 (amended): the context preview has length at most
`2 * snippet_size + 3` (the three extra characters are the appended
ellipsis of `_truncate_content`); with no query the result is exactly
`_truncate_content content snippet_size`, i.e. the content itself when it
fits in `snippet_size`, else its first `snippet_size` characters followed
by `"..."`. -/
theorem create_context_preview_length (content : List Char)
    (query : Option (List Char)) (snippet_size : Nat) :
    (create_context_preview content query snippet_size).length ≤
        2 * snippet_size + 3 ∧
      create_context_preview content none snippet_size =
        truncate_content content snippet_size := by
  refine ⟨?_, rfl⟩
  have htr : ∀ l : List Char,
      (truncate_content l snippet_size).length ≤ 2 * snippet_size + 3 := by
    intro l
    have := truncate_content_length l snippet_size
    omega
  match query with
  | none => exact htr content
  | some q =>
    rw [create_context_preview]
    dsimp only
    split
    · exact htr content
    · split
      · exact htr content
      · exact context_preview_core_length content snippet_size _

/-- Counterexample to C3 as stated: with content `"abcdef"`, no query and
`snippet_size = 1` the preview is `"a..."`, of length `4 > 2 * 1`. -/
theorem create_context_preview_exceeds_twice :
    ¬ ((create_context_preview
          ('a' :: 'b' :: 'c' :: 'd' :: 'e' :: 'f' :: []) none 1).length ≤
        2 * 1) := by
  decide

/-! ## Vector math (`backend/services/retrieval_service.py`)

numpy float vectors are modelled as `List ℝ` with exact real arithmetic.
Comparisons on reals are classically decidable, so the definitions below
are noncomputable; concrete runs are evaluated in proofs via `norm_num`. -/

section RealModel

open scoped Classical

/-- `np.dot` of two (equal-length) vectors. -/
def dotList (v1 v2 : List ℝ) : ℝ :=
  ((v1.zip v2).map (fun p => p.1 * p.2)).sum

/-- `np.linalg.norm`. -/
noncomputable def norm2 (v : List ℝ) : ℝ :=
  Real.sqrt (dotList v v)

/-- `RetrievalService.cosine_similarity`: `0.0` when either norm is zero,
else `dot / (norm1 * norm2)`. -/
noncomputable def cosine_similarity (vec1 vec2 : List ℝ) : ℝ :=
  if norm2 vec1 = 0 ∨ norm2 vec2 = 0 then 0
  else dotList vec1 vec2 / (norm2 vec1 * norm2 vec2)

theorem dotList_comm (v w : List ℝ) : dotList v w = dotList w v := by
  induction v generalizing w with
  | nil => cases w <;> simp [dotList]
  | cons a v ih =>
    cases w with
    | nil => simp [dotList]
    | cons b w =>
      simp only [dotList, List.zip_cons_cons, List.map_cons, List.sum_cons]
      rw [mul_comm]
      exact congrArg _ (ih w)

theorem cosine_similarity_comm (v w : List ℝ) :
    cosine_similarity v w = cosine_similarity w v := by
  simp only [cosine_similarity, dotList_comm v w, mul_comm (norm2 v) (norm2 w),
    or_comm]

/-- A retrieved document: an identifier standing for the payload
(`id`/`content`/`metadata`, carried through unchanged) plus its
embedding. -/
structure Doc where
  id : Nat
  embedding : List ℝ
deriving Inhabited

/-- The body of the `for doc in documents[1:]` loop of
`apply_diversity_filter`: keep `d` iff its similarity to every
already-selected document stays `≤ threshold` (the source drops `d` as
soon as one similarity is `> threshold`). -/
noncomputable def diversityLoop (threshold : ℝ) :
    List Doc → List Doc → List Doc
  | [], selected => selected
  | d :: ds, selected =>
      if ∀ s ∈ selected, cosine_similarity d.embedding s.embedding ≤ threshold
      then diversityLoop threshold ds (selected ++ [d])
      else diversityLoop threshold ds selected

/-- `RetrievalService.apply_diversity_filter`: lists of length `≤ 1` are
returned unchanged; otherwise the top document is always kept and the
rest are filtered greedily. -/
noncomputable def apply_diversity_filter (documents : List Doc)
    (threshold : ℝ) : List Doc :=
  if documents.length ≤ 1 then documents
  else
    match documents with
    | [] => []
    | d0 :: rest => diversityLoop threshold rest [d0]

theorem diversityLoop_decomp (threshold : ℝ) (ds : List Doc) :
    ∀ sel : List Doc, ∃ kept,
      diversityLoop threshold ds sel = sel ++ kept ∧ kept.Sublist ds := by
  induction ds with
  | nil => exact fun sel => ⟨[], by simp [diversityLoop]⟩
  | cons d ds ih =>
    intro sel
    rw [diversityLoop]
    split
    · obtain ⟨kept, hk, hs⟩ := ih (sel ++ [d])
      exact ⟨d :: kept, by rw [hk]; simp, hs.cons₂ d⟩
    · obtain ⟨kept, hk, hs⟩ := ih sel
      exact ⟨kept, hk, hs.cons d⟩

theorem diversityLoop_pairwise (threshold : ℝ) (ds : List Doc) :
    ∀ sel : List Doc,
      sel.Pairwise (fun a b =>
        cosine_similarity a.embedding b.embedding ≤ threshold ∧
          cosine_similarity b.embedding a.embedding ≤ threshold) →
      (diversityLoop threshold ds sel).Pairwise (fun a b =>
        cosine_similarity a.embedding b.embedding ≤ threshold ∧
          cosine_similarity b.embedding a.embedding ≤ threshold) := by
  induction ds with
  | nil =>
    intro sel hsel
    rw [diversityLoop]
    exact hsel
  | cons d ds ih =>
    intro sel hsel
    rw [diversityLoop]
    split
    · rename_i hdiv
      refine ih (sel ++ [d]) ?_
      rw [List.pairwise_append]
      refine ⟨hsel, List.pairwise_singleton _ _, ?_⟩
      intro a ha b hb
      rcases List.mem_singleton.1 hb with rfl
      exact ⟨by rw [cosine_similarity_comm]; exact hdiv a ha, hdiv a ha⟩
    · exact ih sel hsel

/-- Claim C1: for every input list and threshold, the diversity filter
returns an order-preserving subset (a sublist) of the input of length at
most the input's, non-empty whenever the input is non-empty, in which
every pair of kept documents has pairwise cosine similarity at most the
threshold (in both argument orders; cosine similarity is symmetric). -/
theorem apply_diversity_filter_spec (documents : List Doc) (threshold : ℝ) :
    (apply_diversity_filter documents threshold).Sublist documents ∧
      (apply_diversity_filter documents threshold).length ≤
        documents.length ∧
      (documents ≠ [] → apply_diversity_filter documents threshold ≠ []) ∧
      (apply_diversity_filter documents threshold).Pairwise (fun a b =>
        cosine_similarity a.embedding b.embedding ≤ threshold ∧
          cosine_similarity b.embedding a.embedding ≤ threshold) := by
  match documents with
  | [] =>
    refine ⟨?_, ?_, ?_, ?_⟩ <;>
      simp [apply_diversity_filter]
  | [d] =>
    refine ⟨?_, ?_, ?_, ?_⟩ <;>
      simp [apply_diversity_filter, List.pairwise_singleton]
  | d0 :: d1 :: rest2 =>
    have hlen : ¬ ((d0 :: d1 :: rest2).length ≤ 1) := by simp
    have hred : apply_diversity_filter (d0 :: d1 :: rest2) threshold =
        diversityLoop threshold (d1 :: rest2) [d0] := by
      rw [apply_diversity_filter, if_neg hlen]
    obtain ⟨kept, hk, hs⟩ := diversityLoop_decomp threshold (d1 :: rest2) [d0]
    have hsub : (diversityLoop threshold (d1 :: rest2) [d0]).Sublist
        (d0 :: d1 :: rest2) := by
      rw [hk]
      exact hs.cons₂ d0
    rw [hred]
    refine ⟨hsub, hsub.length_le, fun _ => ?_, ?_⟩
    · rw [hk]
      simp
    · exact diversityLoop_pairwise threshold (d1 :: rest2) [d0]
        (List.pairwise_singleton _ _)

/-- Witness for C1: a two-document input (similarity `3/5` between the
documents) is non-empty, hence so is the filter's output. -/
theorem apply_diversity_filter_spec_witness :
    ([⟨0, [1, 0]⟩, ⟨1, [3, 4]⟩] : List Doc) ≠ [] ∧
      apply_diversity_filter [⟨0, [1, 0]⟩, ⟨1, [3, 4]⟩] (1 / 2) ≠ [] :=
  ⟨by simp, (apply_diversity_filter_spec _ _).2.2.1 (by simp)⟩

end RealModel

/-! ## Stability of `List.insertionSort`

`np.argsort` (ascending, stable on the small arrays of interest) and
Python's `list.sort(key=…, reverse=True)` (stable descending) are both
modelled with `List.insertionSort`, which inserts every element after its
equals and therefore is stable.  `lexRel le R` is the order actually
produced: strictly-`le` first, ties resolved by the original order `R`. -/

/-- The lexicographic combination of a total preorder `le` with a
tie-breaking relation `R`. -/
def lexRel {α : Type} (le R : α → α → Prop) (a b : α) : Prop :=
  (le a b ∧ ¬ le b a) ∨ (le a b ∧ le b a ∧ R a b)

theorem lexRel_le {α : Type} {le R : α → α → Prop} {a b : α}
    (h : lexRel le R a b) : le a b :=
  h.elim And.left (fun h2 => h2.1)

theorem orderedInsert_pairwise_stable {α : Type} (le : α → α → Prop)
    [DecidableRel le] (htot : ∀ a b, le a b ∨ le b a)
    (htr : ∀ a b c, le a b → le b c → le a c) (R : α → α → Prop) (x : α)
    (l : List α) (hs : l.Pairwise (lexRel le R)) (hx : ∀ y ∈ l, R x y) :
    (List.orderedInsert le x l).Pairwise (lexRel le R) := by
  induction l with
  | nil => simp [List.orderedInsert, List.pairwise_singleton]
  | cons b l ih =>
    rw [List.pairwise_cons] at hs
    rw [List.orderedInsert]
    split
    · rename_i hxb
      rw [List.pairwise_cons]
      refine ⟨?_, List.pairwise_cons.2 hs⟩
      intro y hy
      rcases List.mem_cons.1 hy with rfl | hyl
      · by_cases hbx : le y x
        · exact Or.inr ⟨hxb, hbx, hx y (List.mem_cons_self _ _)⟩
        · exact Or.inl ⟨hxb, hbx⟩
      · have hby : le b y := lexRel_le (hs.1 y hyl)
        have hxy : le x y := htr x b y hxb hby
        by_cases hyx : le y x
        · exact Or.inr ⟨hxy, hyx, hx y (List.mem_cons_of_mem _ hyl)⟩
        · exact Or.inl ⟨hxy, hyx⟩
    · rename_i hxb
      rw [List.pairwise_cons]
      constructor
      · intro y hy
        rw [List.mem_orderedInsert] at hy
        rcases hy with rfl | hyl
        · exact Or.inl ⟨(htot y b).resolve_left hxb, hxb⟩
        · exact hs.1 y hyl
      · exact ih hs.2 (fun y hy => hx y (List.mem_cons_of_mem _ hy))

theorem insertionSort_pairwise_stable {α : Type} (le : α → α → Prop)
    [DecidableRel le] (htot : ∀ a b, le a b ∨ le b a)
    (htr : ∀ a b c, le a b → le b c → le a c) (R : α → α → Prop)
    (l : List α) (hl : l.Pairwise R) :
    (List.insertionSort le l).Pairwise (lexRel le R) := by
  induction l with
  | nil => simp [List.insertionSort]
  | cons x l ih =>
    rw [List.pairwise_cons] at hl
    rw [List.insertionSort]
    refine orderedInsert_pairwise_stable le htot htr R x _ (ih hl.2) ?_
    intro y hy
    exact hl.1 y ((List.perm_insertionSort le l).subset hy)

theorem orderedInsert_map {α β : Type} (f : α → β) (ra : α → α → Prop)
    (rb : β → β → Prop) [DecidableRel ra] [DecidableRel rb]
    (hcomp : ∀ a b, ra a b ↔ rb (f a) (f b)) (x : α) (l : List α) :
    (List.orderedInsert ra x l).map f =
      List.orderedInsert rb (f x) (l.map f) := by
  induction l with
  | nil => simp [List.orderedInsert]
  | cons b l ih =>
    rw [List.orderedInsert, List.map_cons, List.orderedInsert]
    by_cases h : ra x b
    · rw [if_pos h, if_pos ((hcomp x b).1 h)]
      simp
    · rw [if_neg h, if_neg (fun hb => h ((hcomp x b).2 hb))]
      simp [ih]

theorem insertionSort_map {α β : Type} (f : α → β) (ra : α → α → Prop)
    (rb : β → β → Prop) [DecidableRel ra] [DecidableRel rb]
    (hcomp : ∀ a b, ra a b ↔ rb (f a) (f b)) (l : List α) :
    (List.insertionSort ra l).map f = List.insertionSort rb (l.map f) := by
  induction l with
  | nil => rfl
  | cons x l ih =>
    rw [List.insertionSort, List.map_cons, List.insertionSort, ← ih,
      orderedInsert_map f ra rb hcomp]

theorem enumFrom_fst_le {α : Type} :
    ∀ (l : List α) (n : Nat) (p : Nat × α), p ∈ l.enumFrom n → n ≤ p.1 := by
  intro l
  induction l with
  | nil => intro n p hp; simp at hp
  | cons x l ih =>
    intro n p hp
    rw [List.enumFrom, List.mem_cons] at hp
    rcases hp with rfl | hp
    · exact le_refl _
    · exact Nat.le_of_succ_le (ih (n + 1) p hp)

theorem enumFrom_pairwise_fst_lt {α : Type} (l : List α) :
    ∀ n : Nat, (l.enumFrom n).Pairwise (fun p q => p.1 < q.1) := by
  induction l with
  | nil => intro n; simp
  | cons x l ih =>
    intro n
    rw [List.enumFrom, List.pairwise_cons]
    exact ⟨fun p hp => enumFrom_fst_le l (n + 1) p hp, ih (n + 1)⟩

theorem enum_pairwise_fst_lt {α : Type} (l : List α) :
    l.enum.Pairwise (fun p q => p.1 < q.1) :=
  enumFrom_pairwise_fst_lt l 0

/-! ## Reranking (`RetrievalService.rerank_documents`) -/

section RerankModel

open scoped Classical

/-- A candidate entering the reranker: identifier (for the payload
carried through unchanged), embedding, current score, and the optional
`metadata['quality_score']`. -/
structure RDoc where
  id : Nat
  embedding : List ℝ
  score : ℝ
  quality_score : Option ℝ

/-- `RetrievalService.calculate_relevance_score`: cosine base score,
blended `0.7 / 0.3` with the quality signal when present, clamped to
`[0, 1]`.  The recency branch of the source is a `pass` (no-op). -/
noncomputable def calculate_relevance_score
    (query_embedding doc_embedding : List ℝ) (quality : Option ℝ) : ℝ :=
  let base_score := cosine_similarity query_embedding doc_embedding
  let adjusted_score :=
    match quality with
    | some q => base_score * 0.7 + q * 0.3
    | none => base_score
  max 0 (min 1 adjusted_score)

/-- One document rescored (`updated_doc['score'] = enhanced_score`). -/
noncomputable def rescored (query_embedding : List ℝ) (d : RDoc) : RDoc :=
  { d with score :=
      calculate_relevance_score query_embedding d.embedding d.quality_score }

/-- Python's `list.sort(key=lambda x: x['score'], reverse=True)`: a
stable descending sort by score. -/
noncomputable def sortDesc (l : List RDoc) : List RDoc :=
  List.insertionSort (fun a b => b.score ≤ a.score) l

/-- The same sort performed on index-tagged documents; used to express
stability. -/
noncomputable def sortDescEnum (l : List RDoc) : List (Nat × RDoc) :=
  List.insertionSort (fun a b : Nat × RDoc => b.2.score ≤ a.2.score) l.enum

/-- `RetrievalService.rerank_documents`: rescore the first
`rerank_top_k` documents (all of them when the limit is `None` or `0`,
both falsy), sort only those by the new scores, then append the
untouched remainder when a limit was given and the list is longer. -/
noncomputable def rerank_documents (query_embedding : List ℝ)
    (documents : List RDoc) (rerank_top_k : Option Nat) : List RDoc :=
  if documents.isEmpty then documents
  else
    let docs_to_rerank :=
      match rerank_top_k with
      | some k => if k ≠ 0 then documents.take k else documents
      | none => documents
    let reranked_docs := sortDesc (docs_to_rerank.map (rescored query_embedding))
    match rerank_top_k with
    | some k =>
        if k ≠ 0 ∧ k < documents.length then
          reranked_docs ++ documents.drop k
        else reranked_docs
    | none => reranked_docs

theorem sortDesc_sorted (l : List RDoc) :
    (sortDesc l).Pairwise (fun a b => b.score ≤ a.score) := by
  haveI : IsTotal RDoc (fun a b => b.score ≤ a.score) :=
    ⟨fun a b => le_total _ _⟩
  haveI : IsTrans RDoc (fun a b => b.score ≤ a.score) :=
    ⟨fun a b c hab hbc => le_trans hbc hab⟩
  exact List.sorted_insertionSort _ l

theorem sortDesc_perm (l : List RDoc) : (sortDesc l).Perm l :=
  List.perm_insertionSort _ l

theorem sortDesc_eq_map_sortDescEnum (l : List RDoc) :
    sortDesc l = (sortDescEnum l).map Prod.snd := by
  rw [sortDescEnum,
    insertionSort_map Prod.snd
      (fun a b : Nat × RDoc => b.2.score ≤ a.2.score)
      (fun a b : RDoc => b.score ≤ a.score) (fun a b => Iff.rfl) l.enum,
    List.enum_map_snd, sortDesc]

theorem sortDescEnum_stable (l : List RDoc) :
    (sortDescEnum l).Pairwise (fun p q =>
      q.2.score < p.2.score ∨ (p.2.score = q.2.score ∧ p.1 < q.1)) := by
  have h := insertionSort_pairwise_stable
    (fun a b : Nat × RDoc => b.2.score ≤ a.2.score)
    (fun a b => le_total _ _) (fun a b c hab hbc => le_trans hbc hab)
    (fun p q => p.1 < q.1) l.enum (enum_pairwise_fst_lt l)
  refine h.imp ?_
  rintro p q (⟨h1, h2⟩ | ⟨h1, h2, h3⟩)
  · exact Or.inl (lt_of_le_not_le h1 h2)
  · exact Or.inr ⟨le_antisymm h2 h1, h3⟩

/-- Claim C4 (amended): with a non-zero limit `k`, `rerank_documents`
rescores exactly the first `k` documents and sorts only them; the
remaining documents are appended unchanged, in input order, and the
combined list is NOT re-sorted globally.  With no limit all documents
are rescored and the whole list is sorted.  The sort is descending by
score and stable on ties: it equals the index-tagged sort, which is
strictly ordered by (score descending, original position ascending). -/
theorem rerank_documents_spec (query_embedding : List ℝ)
    (documents : List RDoc) (k : Nat) (hk : k ≠ 0) :
    rerank_documents query_embedding documents (some k) =
        sortDesc ((documents.take k).map (rescored query_embedding)) ++
          documents.drop k ∧
      rerank_documents query_embedding documents none =
        sortDesc (documents.map (rescored query_embedding)) ∧
      ∀ l : List RDoc,
        (sortDesc l).Pairwise (fun a b => b.score ≤ a.score) ∧
          (sortDesc l).Perm l ∧
          sortDesc l = (sortDescEnum l).map Prod.snd ∧
          (sortDescEnum l).Pairwise (fun p q =>
            q.2.score < p.2.score ∨
              (p.2.score = q.2.score ∧ p.1 < q.1)) := by
  refine ⟨?_, ?_, fun l => ⟨sortDesc_sorted l, sortDesc_perm l,
    sortDesc_eq_map_sortDescEnum l, sortDescEnum_stable l⟩⟩
  · rw [rerank_documents]
    split
    · rename_i hemp
      rw [List.isEmpty_iff] at hemp
      subst hemp
      simp [sortDesc, List.insertionSort]
    · split
      · rfl
      · rename_i hguard
        have hlen : documents.length ≤ k := by omega
        rw [List.drop_eq_nil_of_le hlen, List.append_nil]
  · rw [rerank_documents]
    split
    · rename_i hemp
      rw [List.isEmpty_iff] at hemp
      subst hemp
      simp [sortDesc, List.insertionSort]
    · rfl

end RerankModel

/-! ## Concrete evaluation helpers for real-vector runs -/

theorem norm2_eval (v : List ℝ) (c : ℝ) (hc : 0 ≤ c)
    (h : dotList v v = c ^ 2) : norm2 v = c := by
  rw [norm2, h, Real.sqrt_sq hc]

theorem norm2_one_zero : norm2 [(1 : ℝ), 0] = 1 :=
  norm2_eval _ 1 (by norm_num) (by norm_num [dotList])

theorem norm2_zero_one : norm2 [(0 : ℝ), 1] = 1 :=
  norm2_eval _ 1 (by norm_num) (by norm_num [dotList])

theorem norm2_three_four : norm2 [(3 : ℝ), 4] = 5 :=
  norm2_eval _ 5 (by norm_num) (by norm_num [dotList])

theorem norm2_twelve_five : norm2 [(12 : ℝ), 5] = 13 :=
  norm2_eval _ 13 (by norm_num) (by norm_num [dotList])

theorem norm2_four_three : norm2 [(4 : ℝ), 3] = 5 :=
  norm2_eval _ 5 (by norm_num) (by norm_num [dotList])

theorem norm2_six_eight : norm2 [(6 : ℝ), 8] = 10 :=
  norm2_eval _ 10 (by norm_num) (by norm_num [dotList])

theorem cosine_eval (v w : List ℝ) (a b c : ℝ) (hd : dotList v w = a)
    (hv : norm2 v = b) (hw : norm2 w = c) (hb : b ≠ 0) (hc : c ≠ 0) :
    cosine_similarity v w = a / (b * c) := by
  rw [cosine_similarity, if_neg (by simp [hv, hw, hb, hc]), hd, hv, hw]

theorem cos_ten_zeroone : cosine_similarity [(1 : ℝ), 0] [(0 : ℝ), 1] = 0 := by
  rw [cosine_eval _ _ 0 1 1 (by norm_num [dotList]) norm2_one_zero
    norm2_zero_one one_ne_zero one_ne_zero]
  norm_num

/-- Counterexample to C4 as stated: rerank with `limit = 1` of two
documents where the rescored head gets score `0` and the untouched tail
keeps score `9/10` yields `[score 0, score 9/10]` — the combined list is
not re-sorted descending. -/
theorem rerank_documents_not_globally_sorted :
    rerank_documents [(1 : ℝ), 0]
        [⟨1, [0, 1], 9 / 10, none⟩, ⟨2, [1, 0], 9 / 10, none⟩] (some 1) =
      [⟨1, [0, 1], 0, none⟩, ⟨2, [1, 0], 9 / 10, none⟩] ∧
    ¬ (([⟨1, [0, 1], (0 : ℝ), none⟩,
          ⟨2, [1, 0], 9 / 10, none⟩] : List RDoc).Pairwise
        (fun a b => b.score ≤ a.score)) := by
  constructor
  · have hc : calculate_relevance_score [(1 : ℝ), 0] [0, 1] none = 0 := by
      rw [calculate_relevance_score, cos_ten_zeroone]
      norm_num
    rw [rerank_documents]
    norm_num [rescored, hc, sortDesc, List.insertionSort, List.orderedInsert]
  · intro h
    rw [List.pairwise_cons] at h
    have := h.1 _ (List.mem_cons_self _ _)
    norm_num at this

/-- Witness for C4 (amended), at `limit = 1` on the counterexample's
input: the first document is rescored and the second appended unchanged. -/
theorem rerank_documents_spec_witness :
    rerank_documents [(1 : ℝ), 0]
        [⟨1, [0, 1], 9 / 10, none⟩, ⟨2, [1, 0], 9 / 10, none⟩] (some 1) =
      sortDesc ((([⟨1, [0, 1], 9 / 10, none⟩,
            ⟨2, [1, 0], (9 : ℝ) / 10, none⟩] : List RDoc).take 1).map
          (rescored [(1 : ℝ), 0])) ++
        ([⟨1, [0, 1], 9 / 10, none⟩,
            ⟨2, [1, 0], (9 : ℝ) / 10, none⟩] : List RDoc).drop 1 :=
  (rerank_documents_spec [(1 : ℝ), 0] _ 1 (by norm_num)).1

/-! ## Top-k retrieval (`RetrievalService.find_similar_documents`)

The source stacks all document embeddings (`np.stack` raises a
`ValueError` on ragged embeddings), computes `np.dot(doc_embeddings,
query_embedding)` (raises a `ValueError` when the query dimension differs
from the documents' dimension), divides by the norm products with
zero norms replaced by `1e-10`, filters indices with
`similarities >= min_score`, and selects/sorts the top `top_k`.  Those
two numpy `ValueError`s are modelled as `Except.error`. -/

section RetrievalModel

open scoped Classical

/-- The two numpy shape errors `find_similar_documents` can raise. -/
inductive NumpyErr where
  | stackMismatch
  | dotMismatch
deriving DecidableEq, Repr

/-- The vectorized similarity array: for each document,
`dot(doc, query) / (query_norm * doc_norm)` with zero norms replaced by
`1e-10`. -/
noncomputable def simsList (query_embedding : List ℝ) (docs : List Doc) :
    List ℝ :=
  let query_norm :=
    if norm2 query_embedding = 0 then 1 / 10 ^ 10 else norm2 query_embedding
  docs.map (fun d =>
    let doc_norm :=
      if norm2 d.embedding = 0 then 1 / 10 ^ 10 else norm2 d.embedding
    dotList d.embedding query_embedding / (query_norm * doc_norm))

/-- `np.where(similarities >= min_score)[0]`: the qualifying indices, in
increasing order. -/
noncomputable def validIndices (min_score : ℝ) (sims : List ℝ) : List Nat :=
  (List.range sims.length).filter
    (fun i => decide (min_score ≤ sims.getD i 0))

/-- `np.argsort(vals)` (ascending): the positions `0..len-1` sorted by
value.  numpy's sort is stable on the small arrays relevant here
(insertion sort is used below the introsort cutoff), which the stable
`insertionSort` reproduces. -/
noncomputable def argsortAsc (vals : List ℝ) : List Nat :=
  List.insertionSort (fun i j => vals.getD i 0 ≤ vals.getD j 0)
    (List.range vals.length)

/-- The branch `len(valid_indices) <= top_k`:
`valid_indices[np.argsort(similarities[valid_indices])[::-1]]` — all
qualifying indices, ordered by descending similarity via a reversed
ascending argsort. -/
noncomputable def topIndicesSmall (sims : List ℝ) (valid : List Nat) :
    List Nat :=
  ((argsortAsc (valid.map (fun i => sims.getD i 0))).reverse).map
    (fun p => valid.getD p 0)

/-- The branch `len(valid_indices) > top_k`.  `np.argpartition(svals,
-top_k)[-top_k:]` is modelled as the last `top_k` entries of the full
ascending argsort (which satisfies argpartition's contract); `mini`
mirrors the source's `similarities[top_k_indices]`, which indexes the
FULL similarity array with positions into `valid_indices` — the
mis-indexing responsible for the ordering bug. -/
noncomputable def topIndicesLarge (sims : List ℝ) (valid : List Nat)
    (top_k : Nat) : List Nat :=
  let svals := valid.map (fun i => sims.getD i 0)
  let top_k_pos := (argsortAsc svals).drop (svals.length - top_k)
  let mini := top_k_pos.map (fun p => sims.getD p 0)
  ((argsortAsc mini).reverse).map
    (fun a => valid.getD (top_k_pos.getD a 0) 0)

/-- `RetrievalService.find_similar_documents`.  Results pair each
selected document with its similarity score
(`doc.copy(); doc['score'] = similarities[idx]`). -/
noncomputable def find_similar_documents (query_embedding : List ℝ)
    (docs : List Doc) (top_k : Nat) (min_score : ℝ) :
    Except NumpyErr (List (Doc × ℝ)) :=
  if docs.isEmpty then .ok []
  else if ∀ d ∈ docs, d.embedding.length = docs.headI.embedding.length then
    if query_embedding.length = docs.headI.embedding.length then
      let sims := simsList query_embedding docs
      let valid := validIndices min_score sims
      if valid.isEmpty then .ok []
      else
        let top :=
          if valid.length ≤ top_k then topIndicesSmall sims valid
          else topIndicesLarge sims valid top_k
        .ok (top.map (fun idx => (docs.getD idx default, sims.getD idx 0)))
    else .error .dotMismatch
  else .error .stackMismatch

/-- Claim C5: whenever some candidate's embedding dimension differs from
the query embedding's dimension, `find_similar_documents` fails with a
dimension-mismatch error (numpy's `ValueError` from `np.stack` when the
candidates are mutually ragged, or from `np.dot` against the query); it
never silently truncates or succeeds. -/
theorem find_similar_documents_dim_mismatch (query_embedding : List ℝ)
    (docs : List Doc) (top_k : Nat) (min_score : ℝ)
    (h : ∃ d ∈ docs, d.embedding.length ≠ query_embedding.length) :
    find_similar_documents query_embedding docs top_k min_score =
        .error .stackMismatch ∨
      find_similar_documents query_embedding docs top_k min_score =
        .error .dotMismatch := by
  obtain ⟨d, hd, hne⟩ := h
  rw [find_similar_documents]
  split
  · rename_i he
    rw [List.isEmpty_iff] at he
    subst he
    simp at hd
  · split
    · rename_i hall
      split
      · rename_i hq
        exact absurd ((hall d hd).trans hq.symm) hne
      · exact Or.inr rfl
    · exact Or.inl rfl

/-- Witness for C5: one 1-dimensional candidate against a 2-dimensional
query fails with the `np.dot` shape error. -/
theorem find_similar_documents_dim_mismatch_witness :
    find_similar_documents [(1 : ℝ), 0] [⟨0, [1]⟩] 5 0 =
        .error .stackMismatch ∨
      find_similar_documents [(1 : ℝ), 0] [⟨0, [1]⟩] 5 0 =
        .error .dotMismatch :=
  find_similar_documents_dim_mismatch _ _ 5 0 ⟨⟨0, [1]⟩, by simp, by simp⟩

theorem validIndices_pairwise_lt (min_score : ℝ) (sims : List ℝ) :
    (validIndices min_score sims).Pairwise (· < ·) :=
  (List.pairwise_lt_range _).filter _

theorem getD_map_of_lt {α β : Type} (f : α → β) :
    ∀ (l : List α) (p : Nat) (da : α) (db : β), p < l.length →
      (l.map f).getD p db = f (l.getD p da) := by
  intro l
  induction l with
  | nil =>
    intro p da db hp
    simp at hp
  | cons a t ih =>
    intro p da db hp
    cases p with
    | zero => simp
    | succ q =>
      simp only [List.map_cons, List.getD_cons_succ]
      exact ih q da db (Nat.lt_of_succ_lt_succ hp)

theorem pairwise_lt_getD (l : List Nat) (hl : l.Pairwise (· < ·))
    (p q : Nat) (hp : p < l.length) (hq : q < l.length) (hpq : p < q) :
    l.getD p 0 < l.getD q 0 := by
  rw [List.getD_eq_getElem l 0 hp, List.getD_eq_getElem l 0 hq]
  exact List.pairwise_iff_get.1 hl ⟨p, hp⟩ ⟨q, hq⟩ hpq

/-- In the all-qualifying branch the produced index order is strictly
descending by similarity with ties broken by DESCENDING original index:
reversing a stable ascending argsort puts equal-similarity candidates in
reverse input order. -/
theorem topIndicesSmall_tie_order (sims : List ℝ) (valid : List Nat)
    (hv : valid.Pairwise (· < ·)) :
    (topIndicesSmall sims valid).Pairwise (fun i j =>
      sims.getD j 0 < sims.getD i 0 ∨
        (sims.getD i 0 = sims.getD j 0 ∧ j < i)) := by
  classical
  set svals := valid.map (fun i => sims.getD i 0) with hsvals
  have h1 := insertionSort_pairwise_stable
    (fun p q => svals.getD p 0 ≤ svals.getD q 0)
    (fun a b => le_total _ _) (fun a b c hab hbc => le_trans hab hbc)
    (· < ·) (List.range svals.length) (List.pairwise_lt_range _)
  have h2 : (argsortAsc svals).reverse.Pairwise
      (fun p q => lexRel (fun p q => svals.getD p 0 ≤ svals.getD q 0)
        (· < ·) q p) := by
    rw [List.pairwise_reverse]
    exact h1
  rw [topIndicesSmall, List.pairwise_map]
  refine List.Pairwise.imp_of_mem ?_ h2
  intro p q hp hq hlex
  have hmem : ∀ r : Nat, r ∈ (argsortAsc svals).reverse → r < valid.length := by
    intro r hr
    rw [List.mem_reverse] at hr
    have := (List.perm_insertionSort
      (fun p q => svals.getD p 0 ≤ svals.getD q 0)
      (List.range svals.length)).subset hr
    rw [List.mem_range, hsvals, List.length_map] at this
    exact this
  have hp2 : p < valid.length := hmem p hp
  have hq2 : q < valid.length := hmem q hq
  have hkey : ∀ r : Nat, r < valid.length →
      svals.getD r 0 = sims.getD (valid.getD r 0) 0 := by
    intro r hr
    rw [hsvals]
    exact getD_map_of_lt _ valid r 0 0 hr
  rcases hlex with ⟨hle, hnle⟩ | ⟨hle, hle2, hqp⟩
  · left
    rw [← hkey p hp2, ← hkey q hq2]
    exact lt_of_le_not_le hle hnle
  · right
    constructor
    · rw [← hkey p hp2, ← hkey q hq2]
      exact le_antisymm hle2 hle
    · exact pairwise_lt_getD valid hv q p hq2 hp2 hqp

/-- Claim C8 (amended): when every qualifying candidate is returned
(`len(valid_indices) <= top_k`), `find_similar_documents` returns the
qualifying candidates ordered by strictly descending similarity with
ties in REVERSED input order (greater original index first), because the
descending order is produced by reversing a stable ascending argsort.
(When more candidates qualify than `top_k`, the ordering is additionally
subject to the mis-indexing bug established for claim C2.) -/
theorem find_similar_documents_tie_order (query_embedding : List ℝ)
    (docs : List Doc) (top_k : Nat) (min_score : ℝ)
    (hne : docs.isEmpty = false)
    (hall : ∀ d ∈ docs, d.embedding.length = docs.headI.embedding.length)
    (hq : query_embedding.length = docs.headI.embedding.length)
    (hvne : (validIndices min_score
      (simsList query_embedding docs)).isEmpty = false)
    (hsmall : (validIndices min_score
      (simsList query_embedding docs)).length ≤ top_k) :
    find_similar_documents query_embedding docs top_k min_score =
      .ok ((topIndicesSmall (simsList query_embedding docs)
          (validIndices min_score (simsList query_embedding docs))).map
        (fun idx => (docs.getD idx default,
          (simsList query_embedding docs).getD idx 0))) ∧
    (topIndicesSmall (simsList query_embedding docs)
        (validIndices min_score (simsList query_embedding docs))).Pairwise
      (fun i j =>
        (simsList query_embedding docs).getD j 0 <
            (simsList query_embedding docs).getD i 0 ∨
          ((simsList query_embedding docs).getD i 0 =
              (simsList query_embedding docs).getD j 0 ∧ j < i)) := by
  refine ⟨?_, topIndicesSmall_tie_order _ _ (validIndices_pairwise_lt _ _)⟩
  rw [find_similar_documents]
  split
  · rename_i he
    rw [he] at hne
    simp at hne
  · dsimp only
    rw [hvne, if_neg Bool.false_ne_true, if_pos hsmall]

/-! ## Concrete retrieval runs

`tieDocs` are two documents with identical similarity `3/5` to the query
`[1, 0]`; `bugDocs` exercise the `len(valid_indices) > top_k` branch with
a filtered-out first document, triggering the mis-indexed argsort keys. -/

/-- Two tied candidates (`[3,4]` and `[6,8]` are parallel). -/
noncomputable def tieDocs : List Doc := [⟨0, [3, 4]⟩, ⟨1, [6, 8]⟩]

/-- Four candidates with similarities `[0, 3/5, 12/13, 4/5]` to `[1, 0]`. -/
noncomputable def bugDocs : List Doc :=
  [⟨0, [0, 1]⟩, ⟨1, [3, 4]⟩, ⟨2, [12, 5]⟩, ⟨3, [4, 3]⟩]

theorem simsList_tieDocs :
    simsList [(1 : ℝ), 0] tieDocs = [3 / 5, 3 / 5] := by
  rw [simsList, tieDocs]
  norm_num [norm2_one_zero, norm2_three_four, norm2_six_eight, dotList]

theorem validIndices_tieDocs :
    validIndices 0 [(3 : ℝ) / 5, 3 / 5] = [0, 1] := by
  rw [validIndices]
  norm_num [List.range_succ, List.filter_cons, decide_eq_true_eq,
    List.getD_cons_zero, List.getD_cons_succ]

theorem argsortAsc_tie :
    argsortAsc [(3 : ℝ) / 5, 3 / 5] = [0, 1] := by
  rw [argsortAsc]
  norm_num [List.range_succ, List.insertionSort, List.orderedInsert,
    List.getD_cons_zero, List.getD_cons_succ]

theorem topIndicesSmall_tieDocs :
    topIndicesSmall [(3 : ℝ) / 5, 3 / 5] [0, 1] = [1, 0] := by
  rw [topIndicesSmall]
  have hm : (([0, 1] : List Nat).map
      (fun i => [(3 : ℝ) / 5, 3 / 5].getD i 0)) = [3 / 5, 3 / 5] := by
    norm_num [List.getD_cons_zero, List.getD_cons_succ]
  rw [hm, argsortAsc_tie]
  norm_num [List.getD_cons_zero, List.getD_cons_succ]

/-- Counterexample to C8 as stated: the two candidates are tied at
similarity `3/5`, yet the result lists document 1 before document 0 —
the REVERSE of their input order (the id sequence `[1, 0]` is not
input-ordered). -/
theorem find_similar_documents_ties_reversed :
    find_similar_documents [(1 : ℝ), 0] tieDocs 5 0 =
      .ok [(⟨1, [6, 8]⟩, 3 / 5), (⟨0, [3, 4]⟩, 3 / 5)] ∧
    ¬ (([1, 0] : List Nat).Pairwise (· ≤ ·)) := by
  refine ⟨?_, by decide⟩
  have h1 := (find_similar_documents_tie_order [(1 : ℝ), 0] tieDocs 5 0
    (by rw [tieDocs]; rfl)
    (by rw [tieDocs]; intro d hd; fin_cases hd <;> rfl)
    (by rw [tieDocs]; rfl)
    (by rw [simsList_tieDocs, validIndices_tieDocs]; rfl)
    (by rw [simsList_tieDocs, validIndices_tieDocs]; norm_num)).1
  rw [h1, simsList_tieDocs, validIndices_tieDocs, topIndicesSmall_tieDocs]
  rw [tieDocs]
  norm_num [List.getD_cons_zero, List.getD_cons_succ]

/-- Witness for C8 (amended) at the tied two-candidate input. -/
theorem find_similar_documents_tie_order_witness :
    find_similar_documents [(1 : ℝ), 0] tieDocs 5 0 =
      .ok ((topIndicesSmall (simsList [(1 : ℝ), 0] tieDocs)
          (validIndices 0 (simsList [(1 : ℝ), 0] tieDocs))).map
        (fun idx => (tieDocs.getD idx default,
          (simsList [(1 : ℝ), 0] tieDocs).getD idx 0))) :=
  (find_similar_documents_tie_order [(1 : ℝ), 0] tieDocs 5 0
    (by rw [tieDocs]; rfl)
    (by rw [tieDocs]; intro d hd; fin_cases hd <;> rfl)
    (by rw [tieDocs]; rfl)
    (by rw [simsList_tieDocs, validIndices_tieDocs]; rfl)
    (by rw [simsList_tieDocs, validIndices_tieDocs]; norm_num)).1

theorem simsList_bugDocs :
    simsList [(1 : ℝ), 0] bugDocs = [0, 3 / 5, 12 / 13, 4 / 5] := by
  rw [simsList, bugDocs]
  norm_num [norm2_one_zero, norm2_zero_one, norm2_three_four,
    norm2_twelve_five, norm2_four_three, dotList]

theorem validIndices_bugDocs :
    validIndices (1 / 2) [(0 : ℝ), 3 / 5, 12 / 13, 4 / 5] = [1, 2, 3] := by
  rw [validIndices]
  norm_num [List.range_succ, List.filter_cons, decide_eq_true_eq,
    List.getD_cons_zero, List.getD_cons_succ]

theorem argsortAsc_bugSvals :
    argsortAsc [(3 : ℝ) / 5, 12 / 13, 4 / 5] = [0, 2, 1] := by
  rw [argsortAsc]
  norm_num [List.range_succ, List.insertionSort, List.orderedInsert,
    List.getD_cons_zero, List.getD_cons_succ]

theorem argsortAsc_bugMini :
    argsortAsc [(12 : ℝ) / 13, 3 / 5] = [1, 0] := by
  rw [argsortAsc]
  norm_num [List.range_succ, List.insertionSort, List.orderedInsert,
    List.getD_cons_zero, List.getD_cons_succ]

/-- The `> top_k` branch on the bug input: argpartition keeps positions
`[2, 1]` (within `valid_indices`) of the two best candidates, but the
final argsort then reads `similarities[[2, 1]]` from the FULL similarity
array — scores of the wrong documents — and so emits indices `[3, 2]`
whose own scores `4/5 < 12/13` are ascending. -/
theorem topIndicesLarge_bugDocs :
    topIndicesLarge [(0 : ℝ), 3 / 5, 12 / 13, 4 / 5] [1, 2, 3] 2 =
      [3, 2] := by
  have hsv : (([1, 2, 3] : List Nat).map
      (fun i => [(0 : ℝ), 3 / 5, 12 / 13, 4 / 5].getD i 0)) =
      [3 / 5, 12 / 13, 4 / 5] := by
    norm_num [List.getD_cons_zero, List.getD_cons_succ]
  norm_num [topIndicesLarge, hsv, argsortAsc_bugSvals, argsortAsc_bugMini,
    List.getD_cons_zero, List.getD_cons_succ]

/-- Claim C2 (code bug): on four candidates with similarities
`[0, 3/5, 12/13, 4/5]`, `min_score = 1/2` (filtering out candidate 0) and
`top_k = 2`, the result is `[(doc 3, 4/5), (doc 2, 12/13)]` — NOT sorted
descending by score, because `np.argsort(similarities[top_k_indices])`
indexes the full similarity array with positions into `valid_indices`
instead of `similarities[valid_indices][top_k_indices]`. -/
theorem find_similar_documents_unsorted :
    find_similar_documents [(1 : ℝ), 0] bugDocs 2 (1 / 2) =
      .ok [(⟨3, [4, 3]⟩, 4 / 5), (⟨2, [12, 5]⟩, 12 / 13)] ∧
    ¬ (([((⟨3, [4, 3]⟩ : Doc), (4 : ℝ) / 5),
          (⟨2, [12, 5]⟩, 12 / 13)]).Pairwise (fun a b => b.2 ≤ a.2)) := by
  constructor
  · rw [find_similar_documents,
      if_neg (by rw [bugDocs]; simp),
      if_pos (by rw [bugDocs]; intro d hd; fin_cases hd <;> rfl),
      if_pos (by rw [bugDocs]; rfl)]
    norm_num [simsList_bugDocs, validIndices_bugDocs, topIndicesLarge_bugDocs,
      List.getD_cons_zero, List.getD_cons_succ]
    exact ⟨by rw [bugDocs]; rfl, by rw [bugDocs]; rfl⟩
  · intro h
    rw [List.pairwise_cons] at h
    have := h.1 _ (List.mem_cons_self _ _)
    norm_num at this

end RetrievalModel

end RAG
